import Mathlib

/-!
# Verification of `kmap2020/kmap.c/kfit_test_omp.cpp`

Shallow embedding of the MEX entry point `mexFunction` of the OpenMP smoke
test `kfit_test_omp.cpp`.  The entry point

1. queries `omp_get_max_threads()` and prints one line with that count,
2. opens an OpenMP parallel region in which every participating thread
   prints one identity line (`"Hello World from master thread %d"`),
3. runs a `#pragma omp for` work-sharing loop over the six iteration
   indices `0,…,5`, printing one line per iteration
   (`"Hello World from thread %d, %d"`), and
4. after the implicit join barrier prints a final `"Finished"` line.

The OpenMP runtime's choices are modelled explicitly by an `OMPRun`:
the value returned by `omp_get_max_threads`, the team size of the
parallel region, the work-sharing assignment of the six iterations to
threads (the OpenMP spec leaves the policy implementation defined), and
the interleaving of the printed lines of the parallel region, recorded
as a list of (thread id, line) events.  A run is `Valid` when it obeys
the OpenMP semantics: positive thread counts, team size bounded by the
queried maximum, every iteration assigned to a team member, and every
thread's subtrace consisting of its identity line followed by the work
lines of exactly its assigned iterations (in some order).
-/

namespace KfitTestOmp

/-- One printed line of `mexFunction`, one constructor per `printf` site:
`numThreads n` is `"Number of threads: n"`, `helloMaster t` is
`"Hello World from master thread t"`, `helloWork t c` is
`"Hello World from thread t, c"`, `finished` is `"Finished"`. -/
inductive Line : Type
  | numThreads (n : Nat)
  | helloMaster (tid : Nat)
  | helloWork (tid : Nat) (count : Nat)
  | finished
deriving DecidableEq

/-- Is this line a work-sharing-loop line (`"Hello World from thread %d, %d"`)? -/
def Line.isWork : Line → Bool
  | .helloWork _ _ => true
  | _ => false

/-- Is this line a per-thread identity line (`"Hello World from master thread %d"`)? -/
def Line.isHello : Line → Bool
  | .helloMaster _ => true
  | _ => false

/-- Is this line the thread-count line (`"Number of threads: %d"`)? -/
def Line.isCount : Line → Bool
  | .numThreads _ => true
  | _ => false

/-- Is this line a work line reporting iteration index `i`? -/
def Line.iterIs (i : Nat) : Line → Bool
  | .helloWork _ c => c == i
  | _ => false

/-- The thread index printed on a work line, `none` for other lines. -/
def Line.workTid : Line → Option Nat
  | .helloWork t _ => some t
  | _ => none

/-- The OpenMP runtime's choices for one execution of `mexFunction`. -/
structure OMPRun : Type where
  /-- The value returned by `omp_get_max_threads()`. -/
  maxth : Nat
  /-- The number of threads in the team of the parallel region. -/
  nthreads : Nat
  /-- The work-sharing assignment of `#pragma omp for`: iteration `i` of
  `for (int count = 0; count < 6; count++)` is executed by thread `assign i`. -/
  assign : Nat → Nat
  /-- The interleaved trace of the parallel region: the printed lines in
  output order, each labelled with the thread that printed it. -/
  events : List (Nat × Line)

/-- The lines printed by thread `t`, in order: the subtrace of the
interleaved event list belonging to `t`. -/
def projEvents (events : List (Nat × Line)) (t : Nat) : List Line :=
  (events.filter (fun e => e.1 == t)).map Prod.snd

/-- The iterations of `0,…,5` that the work-sharing loop assigns to thread `t`. -/
def assignedIters (assign : Nat → Nat) (t : Nat) : List Nat :=
  (List.range 6).filter (fun i => assign i == t)

/-- The work-loop lines thread `t` prints: one per assigned iteration.
Inside the loop body `th_id = omp_get_thread_num()` again, so the printed
thread index is the executing thread itself. -/
def workLines (assign : Nat → Nat) (t : Nat) : List Line :=
  (assignedIters assign t).map (fun i => Line.helloWork t i)

/-- Thread `t` behaves as the source prescribes: its subtrace starts with
its identity line (`printf` before the loop) and the rest is exactly the
work lines of its assigned iterations, in some order. -/
def OMPRun.threadOk (r : OMPRun) (t : Nat) : Prop :=
  (projEvents r.events t).head? = some (Line.helloMaster t) ∧
  (projEvents r.events t).tail.Perm (workLines r.assign t)

/-- The run obeys the OpenMP semantics: `omp_get_max_threads` is positive,
the team is nonempty and no larger than the queried maximum, thread ids of
the team are `0,…,nthreads-1`, every iteration is assigned to a team
member, every event belongs to a team member, and each team member's
subtrace is as `threadOk` prescribes. -/
def OMPRun.Valid (r : OMPRun) : Prop :=
  0 < r.maxth ∧ 0 < r.nthreads ∧ r.nthreads ≤ r.maxth ∧
  (∀ i, i < 6 → r.assign i < r.nthreads) ∧
  (∀ e ∈ r.events, e.1 < r.nthreads) ∧
  (∀ t, t < r.nthreads → r.threadOk t)

instance (r : OMPRun) (t : Nat) : Decidable (r.threadOk t) := by
  unfold OMPRun.threadOk
  infer_instance

instance (r : OMPRun) : Decidable r.Valid := by
  unfold OMPRun.Valid
  infer_instance

/-- The complete output of one execution of `mexFunction`: the
thread-count line, then the interleaved lines of the parallel region,
then the `"Finished"` line printed after the join barrier. -/
def mexOutput (r : OMPRun) : List Line :=
  Line.numThreads r.maxth :: (r.events.map Prod.snd ++ [Line.finished])

/-- Shallow embedding of the whole entry point
`void mexFunction(int nlhs, mxArray* plhs[], int nrhs, const mxArray* prhs[])`.
The MEX output array `plhs` is modelled as the state it holds when the
function returns (the body never assigns any `plhs[k]`, so it is returned
unchanged), and the printed lines are returned alongside.  `α` stands for
the opaque `mxArray*` type; none of the four calling-convention arguments
is read by the body. -/
def mexFunction {α : Type} (nlhs : Int) (plhs : List α) (nrhs : Int)
    (prhs : List α) (r : OMPRun) : List α × List Line :=
  (plhs, mexOutput r)

/-- The thread indices printed on the work lines of an output, in order. -/
def workTids (out : List Line) : List Nat :=
  out.filterMap Line.workTid

/-- Concrete run with a team of two threads, iterations dealt round-robin. -/
def run2 : OMPRun where
  maxth := 2
  nthreads := 2
  assign := fun i => i % 2
  events :=
    [(0, Line.helloMaster 0), (1, Line.helloMaster 1),
     (0, Line.helloWork 0 0), (1, Line.helloWork 1 1),
     (0, Line.helloWork 0 2), (1, Line.helloWork 1 3),
     (0, Line.helloWork 0 4), (1, Line.helloWork 1 5)]

/-- Concrete run with a single-thread team: thread 0 does everything. -/
def run1 : OMPRun where
  maxth := 1
  nthreads := 1
  assign := fun _ => 0
  events :=
    [(0, Line.helloMaster 0),
     (0, Line.helloWork 0 0), (0, Line.helloWork 0 1),
     (0, Line.helloWork 0 2), (0, Line.helloWork 0 3),
     (0, Line.helloWork 0 4), (0, Line.helloWork 0 5)]

/-- Concrete run with a team of seven threads (more threads than the six
iterations): thread `i` gets iteration `i` for `i < 6`, thread 6 gets none. -/
def run7 : OMPRun where
  maxth := 8
  nthreads := 7
  assign := fun i => i
  events :=
    [(0, Line.helloMaster 0), (1, Line.helloMaster 1),
     (2, Line.helloMaster 2), (3, Line.helloMaster 3),
     (4, Line.helloMaster 4), (5, Line.helloMaster 5),
     (6, Line.helloMaster 6),
     (0, Line.helloWork 0 0), (1, Line.helloWork 1 1),
     (2, Line.helloWork 2 2), (3, Line.helloWork 3 3),
     (4, Line.helloWork 4 4), (5, Line.helloWork 5 5)]

/-! ## Counting lemmas -/

/-- Splitting a `countP` over the fibers of a labelling function `f`
whose values are below `N`. -/
lemma sum_countP_filter {α : Type} (p : α → Bool) (f : α → Nat) (N : Nat) :
    ∀ l : List α, (∀ a ∈ l, f a < N) →
      (∑ t ∈ Finset.range N, (l.filter (fun a => f a == t)).countP p)
        = l.countP p := by
  intro l
  induction l with
  | nil => intro _; simp
  | cons a l ih =>
    intro h
    have ha : f a ∈ Finset.range N :=
      Finset.mem_range.mpr (h a (List.mem_cons_self a l))
    have hl : ∀ b ∈ l, f b < N := fun b hb => h b (List.mem_cons_of_mem a hb)
    have hsplit : ∀ t, ((a :: l).filter (fun x => f x == t)).countP p
        = (l.filter (fun x => f x == t)).countP p
          + (if f a = t then (if p a then 1 else 0) else 0) := by
      intro t
      rw [List.filter_cons]
      by_cases hat : f a = t
      · simp [hat, List.countP_cons]
      · simp [hat]
    rw [Finset.sum_congr rfl (fun t _ => hsplit t), Finset.sum_add_distrib,
      ih hl, Finset.sum_ite_eq (Finset.range N) (f a) (fun _ => if p a then 1 else 0),
      if_pos ha, List.countP_cons]

/-- The lines of the parallel region split into the per-thread subtraces. -/
lemma countP_events {r : OMPRun} (hv : r.Valid) (p : Line → Bool) :
    (r.events.map Prod.snd).countP p
      = ∑ t ∈ Finset.range r.nthreads, (projEvents r.events t).countP p := by
  rw [List.countP_map,
    ← sum_countP_filter (p ∘ Prod.snd) Prod.fst r.nthreads r.events hv.2.2.2.2.1]
  apply Finset.sum_congr rfl
  intro t _
  rw [projEvents, List.countP_map]

/-- A team member's subtrace starts with its identity line. -/
lemma projEvents_eq_cons {r : OMPRun} (hv : r.Valid) {t : Nat}
    (ht : t < r.nthreads) :
    projEvents r.events t
      = Line.helloMaster t :: (projEvents r.events t).tail := by
  have hhead := (hv.2.2.2.2.2 t ht).1
  cases hl : projEvents r.events t with
  | nil => rw [hl] at hhead; simp at hhead
  | cons a l =>
    rw [hl] at hhead
    simp only [List.head?_cons, Option.some.injEq] at hhead
    simp [hhead]

/-- `countP` of a team member's subtrace: its identity line plus its work lines. -/
lemma countP_projEvents {r : OMPRun} (hv : r.Valid) {t : Nat}
    (ht : t < r.nthreads) (p : Line → Bool) :
    (projEvents r.events t).countP p
      = (workLines r.assign t).countP p
        + (if p (Line.helloMaster t) then 1 else 0) := by
  have hperm := (hv.2.2.2.2.2 t ht).2
  rw [projEvents_eq_cons hv ht, List.countP_cons, hperm.countP_eq p]

/-- `countP` of the whole output, decomposed line class by line class. -/
lemma countP_output {r : OMPRun} (hv : r.Valid) (p : Line → Bool) :
    (mexOutput r).countP p
      = (if p (Line.numThreads r.maxth) then 1 else 0)
        + (∑ t ∈ Finset.range r.nthreads,
            ((workLines r.assign t).countP p
              + (if p (Line.helloMaster t) then 1 else 0)))
        + (if p Line.finished then 1 else 0) := by
  rw [mexOutput, List.countP_cons, List.countP_append, countP_events hv,
    Finset.sum_congr rfl
      (fun t ht => countP_projEvents hv (Finset.mem_range.mp ht) p)]
  simp [List.countP_cons]
  omega

/-- Iteration `i < 6` lies in thread `t`'s assigned chunk exactly when the
work-sharing map sends it to `t`, and then exactly once. -/
lemma count_assignedIters {assign : Nat → Nat} {t i : Nat} (hi : i < 6) :
    (assignedIters assign t).count i = if assign i = t then 1 else 0 := by
  rw [assignedIters]
  by_cases h : assign i = t
  · rw [if_pos h, List.count_filter (by simp [h])]
    exact List.count_eq_one_of_mem (List.nodup_range 6) (List.mem_range.mpr hi)
  · rw [if_neg h, List.count_eq_zero]
    intro hmem
    rw [List.mem_filter] at hmem
    exact h (by simpa using hmem.2)

/-- Among thread `t`'s work lines, iteration index `i < 6` is reported once
if `i` is assigned to `t` and never otherwise. -/
lemma countP_workLines_iterIs {assign : Nat → Nat} {t i : Nat} (hi : i < 6) :
    (workLines assign t).countP (Line.iterIs i)
      = if assign i = t then 1 else 0 := by
  have h1 : (workLines assign t).countP (Line.iterIs i)
      = (assignedIters assign t).count i := by
    rw [workLines, List.countP_map]
    rfl
  rw [h1, count_assignedIters hi]

/-- Thread `t` emits one work line per assigned iteration. -/
lemma countP_workLines_isWork (assign : Nat → Nat) (t : Nat) :
    (workLines assign t).countP Line.isWork
      = (assignedIters assign t).length := by
  rw [workLines, List.countP_map]
  exact List.countP_eq_length.mpr fun a _ => rfl

/-- Work lines are not identity lines. -/
lemma countP_workLines_isHello (assign : Nat → Nat) (t : Nat) :
    (workLines assign t).countP Line.isHello = 0 := by
  rw [workLines, List.countP_map]
  exact List.countP_eq_zero.mpr fun a _ h => by simp [Function.comp, Line.isHello] at h

/-- Work lines are not the thread-count line. -/
lemma countP_workLines_isCount (assign : Nat → Nat) (t : Nat) :
    (workLines assign t).countP Line.isCount = 0 := by
  rw [workLines, List.countP_map]
  exact List.countP_eq_zero.mpr fun a _ h => by simp [Function.comp, Line.isCount] at h

/-- Work lines never equal a given identity line. -/
lemma countP_workLines_eqHello (assign : Nat → Nat) (t t0 : Nat) :
    (workLines assign t).countP (fun l => l == Line.helloMaster t0) = 0 := by
  rw [workLines, List.countP_map]
  exact List.countP_eq_zero.mpr fun a _ h => by
    simp [Function.comp, beq_iff_eq] at h

/-- Work lines never equal the completion line. -/
lemma countP_workLines_eqFinished (assign : Nat → Nat) (t : Nat) :
    (workLines assign t).countP (fun l => l == Line.finished) = 0 := by
  rw [workLines, List.countP_map]
  exact List.countP_eq_zero.mpr fun a _ h => by
    simp [Function.comp, beq_iff_eq] at h

/-- Among thread `t`'s work lines, the specific line `helloWork t i`
(for `i < 6`) appears once if `i` is assigned to `t` and never otherwise. -/
lemma countP_workLines_eqWork {assign : Nat → Nat} {t i : Nat} (hi : i < 6) :
    (workLines assign t).countP (fun l => l == Line.helloWork t i)
      = if assign i = t then 1 else 0 := by
  have h1 : (workLines assign t).countP (fun l => l == Line.helloWork t i)
      = (assignedIters assign t).countP (fun j => j == i) := by
    rw [workLines, List.countP_map]
    apply List.countP_congr
    intro j _
    simp [Function.comp, beq_iff_eq]
  rw [h1]
  have h2 : (assignedIters assign t).countP (fun j => j == i)
      = (assignedIters assign t).count i := rfl
  rw [h2, count_assignedIters hi]

/-- The six iterations are split among the team members: the chunk sizes
add up to six. -/
lemma sum_assignedIters_length {r : OMPRun} (hv : r.Valid) :
    (∑ t ∈ Finset.range r.nthreads, (assignedIters r.assign t).length) = 6 := by
  have hsum := sum_countP_filter (fun _ : Nat => true) r.assign r.nthreads
    (List.range 6) (fun a ha => hv.2.2.2.1 a (List.mem_range.mp ha))
  simp only [List.countP_true, List.length_range] at hsum
  rw [← hsum]
  apply Finset.sum_congr rfl
  intro t _
  rw [assignedIters]

/-! ## Output-level counting facts -/

/-- Each iteration index `i < 6` appears on exactly one work line. -/
lemma countP_iterIs_output {r : OMPRun} (hv : r.Valid) {i : Nat} (hi : i < 6) :
    (mexOutput r).countP (Line.iterIs i) = 1 := by
  rw [countP_output hv]
  have hstep : ∀ t ∈ Finset.range r.nthreads,
      (workLines r.assign t).countP (Line.iterIs i)
        + (if Line.iterIs i (Line.helloMaster t) then 1 else 0)
      = if r.assign i = t then 1 else 0 := by
    intro t _
    rw [countP_workLines_iterIs hi]
    simp [Line.iterIs]
  rw [Finset.sum_congr rfl hstep,
    Finset.sum_ite_eq (Finset.range r.nthreads) (r.assign i) (fun _ => 1),
    if_pos (Finset.mem_range.mpr (hv.2.2.2.1 i hi))]
  simp [Line.iterIs]

/-- The output carries exactly six work lines in total. -/
lemma countP_isWork_output {r : OMPRun} (hv : r.Valid) :
    (mexOutput r).countP Line.isWork = 6 := by
  rw [countP_output hv]
  have hstep : ∀ t ∈ Finset.range r.nthreads,
      (workLines r.assign t).countP Line.isWork
        + (if Line.isWork (Line.helloMaster t) then 1 else 0)
      = (assignedIters r.assign t).length := by
    intro t _
    rw [countP_workLines_isWork]
    simp [Line.isWork]
  rw [Finset.sum_congr rfl hstep, sum_assignedIters_length hv]
  simp [Line.isWork]

/-- The output carries one identity line per team member. -/
lemma countP_isHello_output {r : OMPRun} (hv : r.Valid) :
    (mexOutput r).countP Line.isHello = r.nthreads := by
  rw [countP_output hv]
  have hstep : ∀ t ∈ Finset.range r.nthreads,
      (workLines r.assign t).countP Line.isHello
        + (if Line.isHello (Line.helloMaster t) then 1 else 0) = 1 := by
    intro t _
    rw [countP_workLines_isHello]
    simp [Line.isHello]
  rw [Finset.sum_congr rfl hstep]
  simp [Line.isHello, Line.isCount]

/-- Each team member's identity line appears exactly once in the output. -/
lemma count_helloMaster_output {r : OMPRun} (hv : r.Valid) {t : Nat}
    (ht : t < r.nthreads) :
    (mexOutput r).count (Line.helloMaster t) = 1 := by
  have hc : (mexOutput r).count (Line.helloMaster t)
      = (mexOutput r).countP (fun l => l == Line.helloMaster t) := rfl
  rw [hc, countP_output hv]
  have hstep : ∀ u ∈ Finset.range r.nthreads,
      (workLines r.assign u).countP (fun l => l == Line.helloMaster t)
        + (if (Line.helloMaster u == Line.helloMaster t) then 1 else 0)
      = if u = t then 1 else 0 := by
    intro u _
    rw [countP_workLines_eqHello]
    simp [beq_iff_eq]
  rw [Finset.sum_congr rfl hstep,
    Finset.sum_ite_eq' (Finset.range r.nthreads) t (fun _ => 1),
    if_pos (Finset.mem_range.mpr ht)]
  simp [beq_iff_eq]

/-- The completion line appears exactly once in the output. -/
lemma count_finished_output {r : OMPRun} (hv : r.Valid) :
    (mexOutput r).count Line.finished = 1 := by
  have hc : (mexOutput r).count Line.finished
      = (mexOutput r).countP (fun l => l == Line.finished) := rfl
  rw [hc, countP_output hv]
  have hstep : ∀ t ∈ Finset.range r.nthreads,
      (workLines r.assign t).countP (fun l => l == Line.finished)
        + (if (Line.helloMaster t == Line.finished) then 1 else 0) = 0 := by
    intro t _
    rw [countP_workLines_eqFinished]
    simp [beq_iff_eq]
  rw [Finset.sum_congr rfl hstep]
  simp [beq_iff_eq]

/-- The thread-count line appears exactly once in the output. -/
lemma countP_isCount_output {r : OMPRun} (hv : r.Valid) :
    (mexOutput r).countP Line.isCount = 1 := by
  rw [countP_output hv]
  have hstep : ∀ t ∈ Finset.range r.nthreads,
      (workLines r.assign t).countP Line.isCount
        + (if Line.isCount (Line.helloMaster t) then 1 else 0) = 0 := by
    intro t _
    rw [countP_workLines_isCount]
    simp [Line.isCount]
  rw [Finset.sum_congr rfl hstep]
  simp [Line.isCount]

/-- The output has exactly `nthreads + 8` lines: the thread-count line,
`nthreads` identity lines, six work lines and the completion line. -/
lemma length_output {r : OMPRun} (hv : r.Valid) :
    (mexOutput r).length = r.nthreads + 8 := by
  have hlen : (mexOutput r).length = (mexOutput r).countP (fun _ => true) := by
    simp
  rw [hlen, countP_output hv]
  have hstep : ∀ t ∈ Finset.range r.nthreads,
      (workLines r.assign t).countP (fun _ => true)
        + (if ((fun _ : Line => true) (Line.helloMaster t)) then 1 else 0)
      = (assignedIters r.assign t).length + 1 := by
    intro t _
    simp [workLines, List.countP_true]
  rw [Finset.sum_congr rfl hstep, Finset.sum_add_distrib,
    sum_assignedIters_length hv]
  simp
  omega

/-! ## Classification of the lines of the parallel region -/

/-- Every event of the parallel region belongs to a team member and is
either that member's identity line or a work line of one of its assigned
iterations. -/
lemma mem_events_classify {r : OMPRun} (hv : r.Valid) {e : Nat × Line}
    (he : e ∈ r.events) :
    e.1 < r.nthreads ∧
      (e.2 = Line.helloMaster e.1 ∨
        ∃ i, i < 6 ∧ r.assign i = e.1 ∧ e.2 = Line.helloWork e.1 i) := by
  have ht : e.1 < r.nthreads := hv.2.2.2.2.1 e he
  refine ⟨ht, ?_⟩
  have hperm := (hv.2.2.2.2.2 e.1 ht).2
  have hmem : e.2 ∈ projEvents r.events e.1 := by
    rw [projEvents]
    exact List.mem_map_of_mem Prod.snd (List.mem_filter.mpr ⟨he, by simp⟩)
  rw [projEvents_eq_cons hv ht] at hmem
  rcases List.mem_cons.mp hmem with h | h
  · exact Or.inl h
  · right
    have hw : e.2 ∈ workLines r.assign e.1 := hperm.mem_iff.mp h
    rw [workLines] at hw
    obtain ⟨i, hi, hei⟩ := List.mem_map.mp hw
    rw [assignedIters, List.mem_filter] at hi
    exact ⟨i, List.mem_range.mp hi.1, by simpa using hi.2, hei.symm⟩

/-- Every line of the parallel region is an identity line or a work line
of a team member. -/
lemma mem_middle_classify {r : OMPRun} (hv : r.Valid) {l : Line}
    (hl : l ∈ r.events.map Prod.snd) :
    (∃ t, t < r.nthreads ∧ l = Line.helloMaster t) ∨
      (∃ t i, t < r.nthreads ∧ i < 6 ∧ r.assign i = t ∧
        l = Line.helloWork t i) := by
  obtain ⟨e, he, hel⟩ := List.mem_map.mp hl
  obtain ⟨ht, hcl⟩ := mem_events_classify hv he
  rcases hcl with h | ⟨i, hi, hai, hei⟩
  · exact Or.inl ⟨e.1, ht, hel ▸ h ▸ rfl⟩
  · exact Or.inr ⟨e.1, i, ht, hi, hai, hel ▸ hei ▸ rfl⟩

/-- Every line of the whole output is the thread-count line, a team
member's identity line, a work line of an assigned iteration, or the
completion line. -/
lemma mem_output_classify {r : OMPRun} (hv : r.Valid) {l : Line}
    (hl : l ∈ mexOutput r) :
    l = Line.numThreads r.maxth ∨
      (∃ t, t < r.nthreads ∧ l = Line.helloMaster t) ∨
      (∃ t i, t < r.nthreads ∧ i < 6 ∧ r.assign i = t ∧
        l = Line.helloWork t i) ∨
      l = Line.finished := by
  rw [mexOutput] at hl
  rcases List.mem_cons.mp hl with h | h
  · exact Or.inl h
  · rcases List.mem_append.mp h with h | h
    · rcases mem_middle_classify hv h with h | h
      · exact Or.inr (Or.inl h)
      · exact Or.inr (Or.inr (Or.inl h))
    · exact Or.inr (Or.inr (Or.inr (by simpa using h)))

/-- Every thread index on a work line of the output is a team member. -/
lemma workTids_lt_nthreads {r : OMPRun} (hv : r.Valid) :
    ∀ x ∈ workTids (mexOutput r), x < r.nthreads := by
  intro x hx
  obtain ⟨l, hl, hxl⟩ := List.mem_filterMap.mp hx
  rcases mem_output_classify hv hl with h | ⟨t, _, h⟩ | ⟨t, i, ht, _, _, h⟩ | h
  all_goals subst h
  · simp [Line.workTid] at hxl
  · simp [Line.workTid] at hxl
  · simp [Line.workTid] at hxl
    omega
  · simp [Line.workTid] at hxl

/-! ## The claims -/

/-- C1: in every valid run, the work-sharing loop emits exactly six work
lines, and each iteration index `0,…,5` appears on exactly one work line
across all threads: no duplicates, no omissions, for any thread count. -/
theorem work_items_each_exactly_once {r : OMPRun} (hv : r.Valid) :
    (∀ i, i < 6 → (mexOutput r).countP (Line.iterIs i) = 1) ∧
    (mexOutput r).countP Line.isWork = 6 :=
  ⟨fun _ hi => countP_iterIs_output hv hi, countP_isWork_output hv⟩

theorem work_items_each_exactly_once_witness :
    run2.Valid ∧
      ((∀ i, i < 6 → (mexOutput run2).countP (Line.iterIs i) = 1) ∧
        (mexOutput run2).countP Line.isWork = 6) :=
  ⟨by decide, work_items_each_exactly_once (by decide)⟩

/-- C2: in every valid run the completion line `"Finished"` is emitted
exactly once and is the last line of the output, after the thread-count
line, every identity line and every work line, because it is printed
only after the join barrier of the parallel region. -/
theorem completion_line_unique_and_last {r : OMPRun} (hv : r.Valid) :
    (mexOutput r).count Line.finished = 1 ∧
    (mexOutput r).getLast? = some Line.finished := by
  refine ⟨count_finished_output hv, ?_⟩
  rw [mexOutput, ← List.cons_append, List.getLast?_concat]

theorem completion_line_unique_and_last_witness :
    run1.Valid ∧
      ((mexOutput run1).count Line.finished = 1 ∧
        (mexOutput run1).getLast? = some Line.finished) :=
  ⟨by decide, completion_line_unique_and_last (by decide)⟩

/-- C3: when the parallel region runs with exactly one thread, the run
produces exactly one identity line, attributed to thread 0, and all six
work lines are attributed to thread 0 (each iteration index once). -/
theorem single_thread_attribution {r : OMPRun} (hv : r.Valid)
    (h1 : r.nthreads = 1) :
    (mexOutput r).countP Line.isHello = 1 ∧
    (∀ t, Line.helloMaster t ∈ mexOutput r → t = 0) ∧
    (∀ t i, Line.helloWork t i ∈ mexOutput r → t = 0) ∧
    (∀ i, i < 6 → (mexOutput r).count (Line.helloWork 0 i) = 1) := by
  refine ⟨by rw [countP_isHello_output hv, h1], ?_, ?_, ?_⟩
  · intro t hmem
    rcases mem_output_classify hv hmem with h | ⟨u, hu, h⟩ | ⟨u, i, _, _, _, h⟩ | h
    · exact absurd h (by simp)
    · obtain rfl : t = u := by simpa using h
      omega
    · exact absurd h (by simp)
    · exact absurd h (by simp)
  · intro t i hmem
    rcases mem_output_classify hv hmem with h | ⟨u, _, h⟩ | ⟨u, j, hu, _, _, h⟩ | h
    · exact absurd h (by simp)
    · exact absurd h (by simp)
    · obtain ⟨rfl, rfl⟩ : t = u ∧ i = j := by simpa using h
      omega
    · exact absurd h (by simp)
  · intro i hi
    have hc : (mexOutput r).count (Line.helloWork 0 i)
        = (mexOutput r).countP (fun l => l == Line.helloWork 0 i) := rfl
    have ha0 : r.assign i = 0 := by
      have := hv.2.2.2.1 i hi
      omega
    rw [hc, countP_output hv, h1, Finset.sum_range_one,
      countP_workLines_eqWork hi, ha0]
    simp [beq_iff_eq]

theorem single_thread_attribution_witness :
    (run1.Valid ∧ run1.nthreads = 1) ∧
      ((mexOutput run1).countP Line.isHello = 1 ∧
        (∀ t, Line.helloMaster t ∈ mexOutput run1 → t = 0) ∧
        (∀ t i, Line.helloWork t i ∈ mexOutput run1 → t = 0) ∧
        (∀ i, i < 6 → (mexOutput run1).count (Line.helloWork 0 i) = 1)) :=
  ⟨⟨by decide, by decide⟩,
    single_thread_attribution (by decide) (by decide)⟩

/-- C4: when the parallel region runs with more than six threads, each of
the six iteration indices is still reported exactly once, and the set of
distinct thread indices on work lines has at most `nthreads` elements. -/
theorem surplus_threads_coverage {r : OMPRun} (hv : r.Valid)
    (h6 : 6 < r.nthreads) :
    (∀ i, i < 6 → (mexOutput r).countP (Line.iterIs i) = 1) ∧
    (workTids (mexOutput r)).dedup.length ≤ r.nthreads := by
  refine ⟨fun _ hi => countP_iterIs_output hv hi, ?_⟩
  have hsub : (workTids (mexOutput r)).dedup.toFinset
      ⊆ Finset.range r.nthreads := by
    intro x hx
    rw [List.mem_toFinset, List.mem_dedup] at hx
    exact Finset.mem_range.mpr (workTids_lt_nthreads hv x hx)
  calc (workTids (mexOutput r)).dedup.length
      = (workTids (mexOutput r)).dedup.toFinset.card :=
        (List.toFinset_card_of_nodup (List.nodup_dedup _)).symm
    _ ≤ (Finset.range r.nthreads).card := Finset.card_le_card hsub
    _ = r.nthreads := Finset.card_range _

theorem surplus_threads_coverage_witness :
    (run7.Valid ∧ 6 < run7.nthreads) ∧
      ((∀ i, i < 6 → (mexOutput run7).countP (Line.iterIs i) = 1) ∧
        (workTids (mexOutput run7)).dedup.length ≤ run7.nthreads) :=
  ⟨⟨by decide, by decide⟩,
    surplus_threads_coverage (by decide) (by decide)⟩

/-- C5: every team member emits exactly one identity line (none is
duplicated), and every identity line in the output carries a 0-based
thread index belonging to the team, hence unique to one thread. -/
theorem identity_lines_unique_per_thread {r : OMPRun} (hv : r.Valid) :
    (∀ t, t < r.nthreads → (mexOutput r).count (Line.helloMaster t) = 1) ∧
    (∀ t, Line.helloMaster t ∈ mexOutput r → t < r.nthreads) := by
  refine ⟨fun t ht => count_helloMaster_output hv ht, ?_⟩
  intro t hmem
  rcases mem_output_classify hv hmem with h | ⟨u, hu, h⟩ | ⟨u, i, _, _, _, h⟩ | h
  · exact absurd h (by simp)
  · obtain rfl : t = u := by simpa using h
    exact hu
  · exact absurd h (by simp)
  · exact absurd h (by simp)

theorem identity_lines_unique_per_thread_witness :
    run7.Valid ∧
      ((∀ t, t < run7.nthreads →
          (mexOutput run7).count (Line.helloMaster t) = 1) ∧
        (∀ t, Line.helloMaster t ∈ mexOutput run7 → t < run7.nthreads)) :=
  ⟨by decide, identity_lines_unique_per_thread (by decide)⟩

/-- C6: the first line of the output reports exactly the value that
`omp_get_max_threads()` returned, that value is positive, and no other
thread-count line occurs. -/
theorem thread_count_line_first_and_valid {r : OMPRun} (hv : r.Valid) :
    (mexOutput r).head? = some (Line.numThreads r.maxth) ∧
    0 < r.maxth ∧
    (mexOutput r).countP Line.isCount = 1 :=
  ⟨rfl, hv.1, countP_isCount_output hv⟩

theorem thread_count_line_first_and_valid_witness :
    run2.Valid ∧
      ((mexOutput run2).head? = some (Line.numThreads run2.maxth) ∧
        0 < run2.maxth ∧
        (mexOutput run2).countP Line.isCount = 1) :=
  ⟨by decide, thread_count_line_first_and_valid (by decide)⟩

/-- C7: the output of a valid run consists of exactly one thread-count
line, one identity line per team member, exactly six work lines and one
completion line, and nothing else: `nthreads + 8` lines in total. -/
theorem output_line_census {r : OMPRun} (hv : r.Valid) :
    (mexOutput r).length = r.nthreads + 8 ∧
    (mexOutput r).countP Line.isCount = 1 ∧
    (mexOutput r).countP Line.isHello = r.nthreads ∧
    (mexOutput r).countP Line.isWork = 6 ∧
    (mexOutput r).count Line.finished = 1 :=
  ⟨length_output hv, countP_isCount_output hv, countP_isHello_output hv,
    countP_isWork_output hv, count_finished_output hv⟩

theorem output_line_census_witness :
    run2.Valid ∧
      ((mexOutput run2).length = run2.nthreads + 8 ∧
        (mexOutput run2).countP Line.isCount = 1 ∧
        (mexOutput run2).countP Line.isHello = run2.nthreads ∧
        (mexOutput run2).countP Line.isWork = 6 ∧
        (mexOutput run2).count Line.finished = 1) :=
  ⟨by decide, output_line_census (by decide)⟩

/-- C8: the five phases happen in order: the output starts with the
thread-count line, then come the lines of the parallel region (each an
identity line or a work line of a team member), and the completion line
is last, after the join barrier. -/
theorem phases_in_order {r : OMPRun} (hv : r.Valid) :
    mexOutput r
        = Line.numThreads r.maxth
            :: (r.events.map Prod.snd ++ [Line.finished]) ∧
    (∀ l ∈ r.events.map Prod.snd,
        (∃ t, t < r.nthreads ∧ l = Line.helloMaster t) ∨
        (∃ t i, t < r.nthreads ∧ i < 6 ∧ l = Line.helloWork t i)) ∧
    (mexOutput r).head? = some (Line.numThreads r.maxth) ∧
    (mexOutput r).getLast? = some Line.finished := by
  refine ⟨rfl, ?_, rfl, ?_⟩
  · intro l hl
    rcases mem_middle_classify hv hl with h | ⟨t, i, ht, hi, _, h⟩
    · exact Or.inl h
    · exact Or.inr ⟨t, i, ht, hi, h⟩
  · rw [mexOutput, ← List.cons_append, List.getLast?_concat]

theorem phases_in_order_witness :
    run2.Valid ∧
      (mexOutput run2
          = Line.numThreads run2.maxth
              :: (run2.events.map Prod.snd ++ [Line.finished]) ∧
        (∀ l ∈ run2.events.map Prod.snd,
            (∃ t, t < run2.nthreads ∧ l = Line.helloMaster t) ∨
            (∃ t i, t < run2.nthreads ∧ i < 6 ∧ l = Line.helloWork t i)) ∧
        (mexOutput run2).head? = some (Line.numThreads run2.maxth) ∧
        (mexOutput run2).getLast? = some Line.finished) :=
  ⟨by decide, phases_in_order (by decide)⟩

/-- C9: the entry point never writes its output-argument array: `plhs` is
returned exactly as supplied, whatever `nlhs` requests, and the printed
lines are the only observable effect. -/
theorem mex_writes_no_outputs {α : Type} (nlhs nrhs : Int)
    (plhs prhs : List α) (r : OMPRun) :
    (mexFunction nlhs plhs nrhs prhs r).1 = plhs ∧
    (mexFunction nlhs plhs nrhs prhs r).2 = mexOutput r :=
  ⟨rfl, rfl⟩

/-- C10: the printed output is independent of the invocation arguments:
two invocations under the same runtime choices (thread counts, schedule,
interleaving) print identical lines whatever `nlhs`, `plhs`, `nrhs` and
`prhs` are, since none of them is ever read. -/
theorem mex_output_independent_of_args {α : Type}
    (nlhs1 nlhs2 nrhs1 nrhs2 : Int) (plhs1 plhs2 prhs1 prhs2 : List α)
    (r : OMPRun) :
    (mexFunction nlhs1 plhs1 nrhs1 prhs1 r).2
      = (mexFunction nlhs2 plhs2 nrhs2 prhs2 r).2 :=
  rfl

end KfitTestOmp
